import Mathlib

/-!
Verification of the ease-curves library: a curve library of easing/shaping
functions together with a named-animation interpolation scheduler.

The curve library (namespaces `ease.formula`, `ease.util`, `ease.curves`) is
embedded over the real numbers, mirroring the source formulas.

The scheduler (`ease.animation`) is embedded over the rationals with explicit
state passing.  All numeric values handled by the scheduler in the source are
plain arithmetic on the host's number type; every scenario examined here is
exact, so `ℚ` is an adequate exact model.  Side effects are made explicit:

* the registry (the source's `animations` object) is an association list in
  insertion order, matching the iteration order of `Object.keys` for the
  string keys used here;
* invoking the value callback or the `onEnd` handler is recorded in an
  observation log (`log` / `endLog`);
* a callback may itself re-enter the scheduler; its re-entrant registry
  operations are modelled by the `RegOp` action type that a callback returns
  (a callback that returns `[]` has no effect on the registry, like a plain
  observing callback in the source);
* object identity of an `Animation` instance (needed because the source
  mutates `this` by reference) is modelled with a fresh numeric `id`
  allocated at creation time;
* the unguarded `anim.update()` call in the per-frame handler is modelled
  with `Except String`: looking up a name that a callback removed earlier in
  the same tick yields `Except.error`, mirroring the runtime error raised on
  calling a method of `undefined`.
-/

noncomputable section

namespace ease.formula

/-- Formula `sine(t) = 1 - cos(t*π/2)` (src/easing.ts line 4). -/
def sine (t : ℝ) : ℝ := 1 - Real.cos ((t * Real.pi) / 2)

/-- Formula `sq1(t) = t` (src/easing.ts line 7). -/
def sq1 (t : ℝ) : ℝ := t

/-- Formula `sq2(t) = t*t` (src/easing.ts line 10). -/
def sq2 (t : ℝ) : ℝ := t * t

/-- Formula `sq3(t) = t*t*t` (src/easing.ts line 13). -/
def sq3 (t : ℝ) : ℝ := t * t * t

/-- Formula `sq4(t) = t*t*t*t` (src/easing.ts line 16). -/
def sq4 (t : ℝ) : ℝ := t * t * t * t

/-- Formula `sq5(t) = t*t*t*t*t` (src/easing.ts line 19). -/
def sq5 (t : ℝ) : ℝ := t * t * t * t * t

/-- Formula `expo(t) = t === 0 ? 0 : 2^(10t-10)` (src/easing.ts line 22); the
exponent is real, so `^` is `Real.rpow`. -/
def expo (t : ℝ) : ℝ := if t = 0 then 0 else (2 : ℝ) ^ (10 * t - 10)

/-- Formula `circ(t) = 1.0 - sqrt(1.0 - t^2)` (src/easing.ts line 25). -/
def circ (t : ℝ) : ℝ := 1.0 - Real.sqrt (1.0 - t ^ 2)

/-- Formula `back(t) = c3*t^3 - c1*t^2` with `c1 = 1.70158`, `c3 = c1 + 1`
(src/easing.ts line 28). -/
def back (t : ℝ) : ℝ :=
  let c1 : ℝ := 1.70158
  let c3 : ℝ := c1 + 1
  c3 * t * t * t - c1 * t * t

/-- Formula `elastic(t)` with special-cased endpoints and `c4 = 2π/3`
(src/easing.ts line 33). -/
def elastic (t : ℝ) : ℝ :=
  let c4 : ℝ := (2 * Real.pi) / 3
  if t = 0 then 0
  else if t = 1 then 1
  else -((2 : ℝ) ^ (10 * t - 10)) * Real.sin ((t * 10 - 10.75) * c4)

end ease.formula

namespace ease.util

/-- Helper `lerp(a,b,t) = a + (b-a)*t` (src/easing.ts line 44). -/
def lerp (a b t : ℝ) : ℝ := a + (b - a) * t

/-- Helper `flip(t) = 1 - t` (src/easing.ts line 47). -/
def flip (t : ℝ) : ℝ := 1 - t

end ease.util

namespace ease.curves

/-- Blend `linear()` returns `util.lerp` (src/easing.ts line 54). -/
def linear : ℝ → ℝ → ℝ → ℝ := ease.util.lerp

/-- Blend `snap(pct)` is the step blend (src/easing.ts line 57). -/
def snap (pct : ℝ) : ℝ → ℝ → ℝ → ℝ := fun a b t => if t < pct then a else b

/-- Blend `easeIn(fn)(a,b,t) = lerp(a, b, fn(t))` (src/easing.ts line 62). -/
def easeIn (fn : ℝ → ℝ) : ℝ → ℝ → ℝ → ℝ :=
  fun a b t => ease.util.lerp a b (fn t)

/-- Blend `easeOut(fn)(a,b,t) = lerp(a, b, flip(fn(flip(t))))` (src/easing.ts line 65). -/
def easeOut (fn : ℝ → ℝ) : ℝ → ℝ → ℝ → ℝ :=
  fun a b t => ease.util.lerp a b (ease.util.flip (fn (ease.util.flip t)))

/-- Blend `easeInOut(fn)(a,b,t) = lerp(a, b, lerp(fn(t), flip(fn(flip(t))), t))`
(src/easing.ts line 68). -/
def easeInOut (fn : ℝ → ℝ) : ℝ → ℝ → ℝ → ℝ :=
  fun a b t =>
    ease.util.lerp a b (ease.util.lerp (fn t) (ease.util.flip (fn (ease.util.flip t))) t)

end ease.curves

end

namespace ease.animation

/-- The enum `RepeatMode` with members None, Reverse, Restart (src/easing.ts line 81). -/
inductive RepeatMode : Type where
  | None : RepeatMode
  | Reverse : RepeatMode
  | Restart : RepeatMode
deriving DecidableEq

/-- A registry operation a (possibly re-entrant) callback may perform against
the scheduler: the source's callbacks are arbitrary closures that may call
`ease.animation.cancel` or `ease.animation.animate` while a tick is running.
A plain observing callback returns `[]`. -/
inductive RegOp : Type where
  | cancelOp (name : String) : RegOp
  | animateOp (name : String) (startValue endValue durationMs : ℚ)
      (curve : ℚ → ℚ → ℚ → ℚ) (callback : ℚ → List RegOp)
      (repeatMode : RepeatMode) (onEnd : Option (String → List RegOp)) : RegOp

/-- The `Animation` class state (src/easing.ts lines 87-106).  `id` models
reference identity of the instance (the source mutates `this` in place);
all other fields are the constructor's stored fields. -/
structure Animation : Type where
  id : Nat
  name : String
  startValue : ℚ
  endValue : ℚ
  durationMs : ℚ
  curve : ℚ → ℚ → ℚ → ℚ
  callback : ℚ → List RegOp
  repeatMode : RepeatMode
  onEnd : String → List RegOp
  startMs : ℚ
  deltaValue : ℚ
  reverse : Bool

/-- Whole-scheduler state: the `animations` registry in insertion order, the
fresh-identity counter, and the observation logs: `log` records each value
delivered to a callback (as `(name, value)`), `endLog` records each
invocation of an instance's `onEnd` handler. -/
structure SchedState : Type where
  anims : List (String × Animation)
  nextId : Nat
  log : List (String × ℚ)
  endLog : List String

/-- The initial registry `let animations = {}` (src/easing.ts line 77). -/
def emptyState : SchedState := ⟨[], 0, [], []⟩

/-- Registry lookup `animations[name]` (first entry with the given key). -/
def lookupA : List (String × Animation) → String → Option Animation
  | [], _ => none
  | p :: rest, n => if p.1 = n then some p.2 else lookupA rest n

/-- Registry deletion `delete animations[name]`. -/
def eraseA : List (String × Animation) → String → List (String × Animation)
  | [], _ => []
  | p :: rest, n => if p.1 = n then eraseA rest n else p :: eraseA rest n

/-- In-place mutation of a registered instance: the entry holding the object
with this identity (same key and same `id`) is replaced; if the instance is
no longer registered the mutation is invisible to the registry, as in the
source where the dead object is simply garbage. -/
def setSame : List (String × Animation) → Animation → List (String × Animation)
  | [], _ => []
  | p :: rest, a =>
      (if p.1 = a.name ∧ p.2.id = a.id then (p.1, a) else p) :: setSame rest a

/-- The `Animation` constructor (src/easing.ts lines 92-106): stores the
arguments, defaults `onEnd` to a no-op, sets `deltaValue`, captures the
clock into `startMs` and clears `reverse`. -/
def mkAnim (id : Nat) (name : String) (startValue endValue durationMs : ℚ)
    (curve : ℚ → ℚ → ℚ → ℚ) (callback : ℚ → List RegOp) (repeatMode : RepeatMode)
    (onEnd : Option (String → List RegOp)) (now : ℚ) : Animation :=
  ⟨id, name, startValue, endValue, durationMs, curve, callback, repeatMode,
    onEnd.getD (fun _ => []), now, endValue - startValue, false⟩

/-- Operation `ease.animation.animate` (src/easing.ts lines 144-157): a no-op when the
name is occupied, otherwise registers a freshly constructed instance. -/
def animate (s : SchedState) (name : String) (startValue endValue durationMs : ℚ)
    (curve : ℚ → ℚ → ℚ → ℚ) (callback : ℚ → List RegOp) (repeatMode : RepeatMode)
    (onEnd : Option (String → List RegOp)) (now : ℚ) : SchedState :=
  if (lookupA s.anims name).isSome then s
  else
    ⟨s.anims ++ [(name, mkAnim s.nextId name startValue endValue durationMs curve
        callback repeatMode onEnd now)],
      s.nextId + 1, s.log, s.endLog⟩

/-- Operation `ease.animation.cancel` (src/easing.ts lines 159-162):
`delete animations[name]`, nothing else. -/
def cancel (s : SchedState) (name : String) : SchedState :=
  ⟨eraseA s.anims name, s.nextId, s.log, s.endLog⟩

/-- Operation `ease.animation.exists` (src/easing.ts lines 164-166); `exists` is a
keyword in Lean, hence the name. -/
def animExists (s : SchedState) (name : String) : Bool :=
  (lookupA s.anims name).isSome

/-- Execute one registry operation requested by a callback. -/
def runOp (s : SchedState) (now : ℚ) : RegOp → SchedState
  | .cancelOp n => cancel s n
  | .animateOp n sv ev dur curve cb mode onEnd =>
      animate s n sv ev dur curve cb mode onEnd now

/-- Execute a callback's registry operations in order. -/
def runOps (now : ℚ) : List RegOp → SchedState → SchedState
  | [], s => s
  | op :: rest, s => runOps now rest (runOp s now op)

/-- Method `Animation.step` (src/easing.ts lines 136-141): flip `t` when `reverse`
is set, evaluate the blend with the stored `startValue`/`endValue` ordering,
and invoke the callback with the result (recorded in `log`, then any
re-entrant registry operations run). -/
def Animation.step (a : Animation) (s : SchedState) (t : ℚ) (now : ℚ) : SchedState :=
  let t' := if a.reverse then 1 - t else t
  let v := a.curve a.startValue a.endValue t'
  runOps now (a.callback v) ⟨s.anims, s.nextId, s.log ++ [(a.name, v)], s.endLog⟩

/-- Method `Animation.update` (src/easing.ts lines 108-134).  On the completion tick
(`deltaMs >= durationMs`) it steps with progress `1`, then applies the
repeat-mode transition: `None` deletes the entry and invokes `onEnd(name)`
(recorded in `endLog`); `Reverse` sets `startMs = now` and toggles `reverse`
on the instance; `Restart` sets `startMs = now`.  Otherwise it steps with
progress `deltaMs / durationMs`. -/
def Animation.update (a : Animation) (s : SchedState) (now : ℚ) : SchedState :=
  let deltaMs := now - a.startMs
  if a.durationMs ≤ deltaMs then
    let s1 := a.step s 1 now
    match a.repeatMode with
    | .None =>
        let s2 : SchedState :=
          ⟨eraseA s1.anims a.name, s1.nextId, s1.log, s1.endLog ++ [a.name]⟩
        runOps now (a.onEnd a.name) s2
    | .Reverse =>
        ⟨setSame s1.anims { a with startMs := now, reverse := !a.reverse },
          s1.nextId, s1.log, s1.endLog⟩
    | .Restart =>
        ⟨setSame s1.anims { a with startMs := now },
          s1.nextId, s1.log, s1.endLog⟩
  else
    a.step s (deltaMs / a.durationMs) now

/-- The body of the `game.onUpdate` handler (src/easing.ts lines 168-174),
iterating a snapshot of the key list: each snapshot name is looked up afresh
and its instance advanced; a name whose entry has disappeared makes the
handler fail (`anim.update()` on `undefined` in the source). -/
def tickAux (now : ℚ) : List String → SchedState → Except String SchedState
  | [], s => .ok s
  | n :: rest, s =>
      match lookupA s.anims n with
      | some a => tickAux now rest (a.update s now)
      | none => .error n

/-- One frame tick: snapshot `Object.keys(animations)` then advance each. -/
def tick (s : SchedState) (now : ℚ) : Except String SchedState :=
  tickAux now (s.anims.map Prod.fst) s

/-- Run a tick on the result of a previous tick. -/
def tickO (e : Except String SchedState) (now : ℚ) : Except String SchedState :=
  e.bind (fun s => tick s now)

/-- The key list of a registry, `Object.keys(animations)`. -/
def namesOf (l : List (String × Animation)) : List String := l.map Prod.fst

/-- An instance whose callbacks are plain observers: neither the value
callback nor the `onEnd` handler performs re-entrant registry operations. -/
def pureAnim (a : Animation) : Prop :=
  (∀ v, a.callback v = []) ∧ (∀ n, a.onEnd n = [])

/-- Every registered instance is a plain observer. -/
def AllPure (l : List (String × Animation)) : Prop := ∀ p ∈ l, pureAnim p.2

/-- Every registry entry stores the instance under the instance's own name
(established by `animate`, which keys the entry by the constructor's name). -/
def Keyed (l : List (String × Animation)) : Prop := ∀ p ∈ l, p.2.name = p.1

/-- Two instance states that agree on every field except `startMs` and
`reverse` (the only fields `Animation.update` ever rewrites). -/
def sameCore (a b : Animation) : Prop :=
  a.id = b.id ∧ a.name = b.name ∧ a.startValue = b.startValue ∧
  a.endValue = b.endValue ∧ a.durationMs = b.durationMs ∧ a.curve = b.curve ∧
  a.callback = b.callback ∧ a.repeatMode = b.repeatMode ∧ a.onEnd = b.onEnd ∧
  a.deltaValue = b.deltaValue

/-- The reversal flip `Animation.step` applies to a progress value. -/
def flipIf (a : Animation) (t : ℚ) : ℚ := if a.reverse then 1 - t else t

/-- The value `Animation.step` delivers to the callback for progress `t`. -/
def stepVal (a : Animation) (t : ℚ) : ℚ :=
  a.curve a.startValue a.endValue (flipIf a t)

theorem sameCore_refl (a : Animation) : sameCore a a := by
  refine ⟨rfl, rfl, rfl, rfl, rfl, rfl, rfl, rfl, rfl, rfl⟩

theorem sameCore_trans {a b c : Animation} (h1 : sameCore a b) (h2 : sameCore b c) :
    sameCore a c := by
  obtain ⟨e1, e2, e3, e4, e5, e6, e7, e8, e9, e10⟩ := h1
  obtain ⟨f1, f2, f3, f4, f5, f6, f7, f8, f9, f10⟩ := h2
  exact ⟨e1.trans f1, e2.trans f2, e3.trans f3, e4.trans f4, e5.trans f5,
    e6.trans f6, e7.trans f7, e8.trans f8, e9.trans f9, e10.trans f10⟩

theorem lookupA_isSome_iff (l : List (String × Animation)) (n : String) :
    (lookupA l n).isSome = true ↔ n ∈ namesOf l := by
  simp only [namesOf]
  induction l with
  | nil => simp [lookupA]
  | cons p rest ih =>
      by_cases h : p.1 = n
      · simp [lookupA, h]
      · have h' : ¬ n = p.1 := fun he => h he.symm
        simp [lookupA, h, h', ih]

theorem lookupA_eq_none_iff (l : List (String × Animation)) (n : String) :
    lookupA l n = none ↔ n ∉ namesOf l := by
  rw [← lookupA_isSome_iff]
  cases lookupA l n <;> simp

theorem lookupA_mem {l : List (String × Animation)} {n : String} {a : Animation}
    (h : lookupA l n = some a) : (n, a) ∈ l := by
  induction l with
  | nil => simp [lookupA] at h
  | cons p rest ih =>
      by_cases hp : p.1 = n
      · simp [lookupA, hp] at h
        subst hp
        subst h
        exact List.mem_cons_self _ _
      · simp [lookupA, hp] at h
        exact List.mem_cons_of_mem _ (ih h)

theorem lookupA_append_some {l l2 : List (String × Animation)} {n : String}
    {a : Animation} (h : lookupA l n = some a) : lookupA (l ++ l2) n = some a := by
  induction l with
  | nil => simp [lookupA] at h
  | cons p rest ih =>
      by_cases hp : p.1 = n
      · simp_all [lookupA]
      · simp_all [lookupA]

theorem lookupA_eraseA (l : List (String × Animation)) (m n : String) :
    lookupA (eraseA l m) n = if n = m then none else lookupA l n := by
  induction l with
  | nil => simp [lookupA, eraseA]
  | cons p rest ih =>
      by_cases hp : p.1 = m
      · rw [show eraseA (p :: rest) m = eraseA rest m from by simp [eraseA, hp]]
        rw [ih]
        by_cases hn : n = m
        · simp [hn]
        · have hq : ¬ p.1 = n := fun he => hn (he.symm.trans hp)
          simp [hn, lookupA, hq]
      · rw [show eraseA (p :: rest) m = p :: eraseA rest m from by simp [eraseA, hp]]
        by_cases hq : p.1 = n
        · have hn : ¬ n = m := fun h => hp (hq.trans h)
          simp [lookupA, hq, hn]
        · simp [lookupA, hq, ih]

theorem eraseA_sublist (l : List (String × Animation)) (m : String) :
    List.Sublist (eraseA l m) l := by
  induction l with
  | nil => simp [eraseA]
  | cons p rest ih =>
      by_cases hp : p.1 = m
      · simp only [eraseA, if_pos hp]
        exact ih.cons p
      · simp only [eraseA, if_neg hp]
        exact ih.cons₂ p

theorem mem_eraseA {l : List (String × Animation)} {m : String}
    {p : String × Animation} (h : p ∈ eraseA l m) : p ∈ l :=
  (eraseA_sublist l m).subset h

theorem namesOf_eraseA_nodup {l : List (String × Animation)} {m : String}
    (h : (namesOf l).Nodup) : (namesOf (eraseA l m)).Nodup :=
  ((eraseA_sublist l m).map Prod.fst).nodup h

theorem namesOf_setSame (l : List (String × Animation)) (a : Animation) :
    namesOf (setSame l a) = namesOf l := by
  induction l with
  | nil => rfl
  | cons p rest ih =>
      simp only [setSame, namesOf, List.map_cons]
      split
      · simp [namesOf] at ih
        simp [ih]
      · simp [namesOf] at ih
        simp [ih]

theorem lookupA_setSame_ne {n : String} {a : Animation} (h : n ≠ a.name)
    (l : List (String × Animation)) : lookupA (setSame l a) n = lookupA l n := by
  induction l with
  | nil => rfl
  | cons p rest ih =>
      by_cases hc : p.1 = a.name ∧ p.2.id = a.id
      · have hpn : ¬ p.1 = n := fun he => h (he.symm.trans hc.1)
        have h2 : ¬ a.name = n := fun he => h he.symm
        simp [setSame, hc, lookupA, hpn, h2, ih]
      · simp [setSame, hc, lookupA, ih]

theorem lookupA_setSame_self {l : List (String × Animation)} {a b : Animation}
    (hb : lookupA l a.name = some b) (hid : b.id = a.id) :
    lookupA (setSame l a) a.name = some a := by
  induction l with
  | nil => simp [lookupA] at hb
  | cons p rest ih =>
      by_cases hp : p.1 = a.name
      · simp [lookupA, hp] at hb
        have hc : p.1 = a.name ∧ p.2.id = a.id := ⟨hp, by rw [hb]; exact hid⟩
        simp [setSame, hc, lookupA]
      · simp [lookupA, hp] at hb
        simp [setSame, hp, lookupA, ih hb]

theorem mem_setSame {l : List (String × Animation)} {a : Animation}
    {p : String × Animation} (h : p ∈ setSame l a) :
    p ∈ l ∨ p = (a.name, a) := by
  induction l with
  | nil => simp [setSame] at h
  | cons q rest ih =>
      simp only [setSame, List.mem_cons] at h
      rcases h with h | h
      · by_cases hc : q.1 = a.name ∧ q.2.id = a.id
        · rw [if_pos hc] at h
          right
          rw [h, hc.1]
        · rw [if_neg hc] at h
          left
          rw [h]
          exact List.mem_cons_self _ _
      · rcases ih h with h' | h'
        · exact Or.inl (List.mem_cons_of_mem _ h')
        · exact Or.inr h'

/-- Registry operations do not invoke callbacks: neither log changes. -/
theorem runOp_log (s : SchedState) (now : ℚ) (op : RegOp) :
    (runOp s now op).log = s.log ∧ (runOp s now op).endLog = s.endLog := by
  cases op with
  | cancelOp n => exact ⟨rfl, rfl⟩
  | animateOp n sv ev dur curve cb mode onEnd =>
      simp only [runOp, animate]
      split <;> exact ⟨rfl, rfl⟩

theorem runOps_log (now : ℚ) (ops : List RegOp) (s : SchedState) :
    (runOps now ops s).log = s.log ∧ (runOps now ops s).endLog = s.endLog := by
  induction ops generalizing s with
  | nil => exact ⟨rfl, rfl⟩
  | cons op rest ih =>
      simp only [runOps]
      exact ⟨((ih _).1).trans (runOp_log s now op).1,
        ((ih _).2).trans (runOp_log s now op).2⟩

/-- Operation `animate` keys every entry it adds by the stored instance's own name. -/
theorem keyed_animate {s : SchedState} (h : Keyed s.anims)
    (name : String) (sv ev dur : ℚ) (curve : ℚ → ℚ → ℚ → ℚ)
    (cb : ℚ → List RegOp) (mode : RepeatMode) (onEnd : Option (String → List RegOp))
    (now : ℚ) : Keyed (animate s name sv ev dur curve cb mode onEnd now).anims := by
  simp only [animate]
  split
  · exact h
  · intro p hp
    simp only [List.mem_append, List.mem_singleton] at hp
    rcases hp with hp | hp
    · exact h p hp
    · rw [hp]
      rfl

theorem keyed_eraseA {l : List (String × Animation)} (h : Keyed l) (m : String) :
    Keyed (eraseA l m) := fun p hp => h p (mem_eraseA hp)

theorem keyed_setSame {l : List (String × Animation)} (h : Keyed l)
    (a : Animation) : Keyed (setSame l a) := by
  intro p hp
  rcases mem_setSame hp with h' | h'
  · exact h p h'
  · rw [h']

theorem keyed_runOp {s : SchedState} (h : Keyed s.anims) (now : ℚ) (op : RegOp) :
    Keyed (runOp s now op).anims := by
  cases op with
  | cancelOp n => exact keyed_eraseA h n
  | animateOp n sv ev dur curve cb mode onEnd =>
      exact keyed_animate h n sv ev dur curve cb mode onEnd now

theorem keyed_runOps {now : ℚ} (ops : List RegOp) {s : SchedState}
    (h : Keyed s.anims) : Keyed (runOps now ops s).anims := by
  induction ops generalizing s with
  | nil => exact h
  | cons op rest ih => exact ih (keyed_runOp h now op)

theorem keyed_step {s : SchedState} (h : Keyed s.anims) (a : Animation)
    (t now : ℚ) : Keyed (a.step s t now).anims := by
  simp only [Animation.step]
  exact keyed_runOps _ h

theorem keyed_update {s : SchedState} (h : Keyed s.anims) (a : Animation)
    (now : ℚ) : Keyed (a.update s now).anims := by
  simp only [Animation.update]
  split
  · have h1 := keyed_step h a 1 now
    cases hm : a.repeatMode with
    | None => exact keyed_runOps _ (keyed_eraseA h1 a.name)
    | Reverse => exact keyed_setSame h1 _
    | Restart => exact keyed_setSame h1 _
  · exact keyed_step h a _ now

/-- Every branch of `Animation.update` appends exactly one value delivery,
under the instance's own name, to the callback log (the re-entrant registry
operations a callback or `onEnd` performs never log anything). -/
theorem update_log_shape (a : Animation) (s : SchedState) (now : ℚ) :
    ∃ v, (a.update s now).log = s.log ++ [(a.name, v)] ∧
      (a.durationMs ≤ now - a.startMs → v = stepVal a 1) := by
  simp only [Animation.update]
  split
  · refine ⟨stepVal a 1, ?_, fun _ => rfl⟩
    have hstep : (a.step s 1 now).log = s.log ++ [(a.name, stepVal a 1)] := by
      simp only [Animation.step]
      rw [(runOps_log _ _ _).1]
      rfl
    cases hm : a.repeatMode with
    | None =>
        simp only [hm]
        rw [(runOps_log _ _ _).1]
        exact hstep
    | Reverse => simp only [hm]; exact hstep
    | Restart => simp only [hm]; exact hstep
  · rename_i hlt
    refine ⟨stepVal a ((now - a.startMs) / a.durationMs), ?_, fun hc => absurd hc hlt⟩
    simp only [Animation.step]
    rw [(runOps_log _ _ _).1]
    rfl

/-- Method `Animation.step` of a plain observing callback only logs the delivery. -/
theorem step_pure {a : Animation} (hcb : ∀ v, a.callback v = [])
    (s : SchedState) (t now : ℚ) :
    a.step s t now = ⟨s.anims, s.nextId, s.log ++ [(a.name, stepVal a t)], s.endLog⟩ := by
  simp only [Animation.step, hcb]
  rfl

/-- Completion tick of a plain observing `RepeatMode.None` instance: deliver
the clamped final value, drop the entry, record the single `onEnd` call. -/
theorem update_done_none {a : Animation} (hp : pureAnim a)
    (hm : a.repeatMode = .None) {s : SchedState} {now : ℚ}
    (ht : a.durationMs ≤ now - a.startMs) :
    a.update s now = ⟨eraseA s.anims a.name, s.nextId,
      s.log ++ [(a.name, stepVal a 1)], s.endLog ++ [a.name]⟩ := by
  simp only [Animation.update, if_pos ht, hm, step_pure hp.1, hp.2]
  rfl

/-- Completion tick of a plain observing `RepeatMode.Reverse` instance:
deliver the clamped final value, then reset `startMs` and toggle `reverse`
on the registered instance. -/
theorem update_done_reverse {a : Animation} (hcb : ∀ v, a.callback v = [])
    (hm : a.repeatMode = .Reverse) {s : SchedState} {now : ℚ}
    (ht : a.durationMs ≤ now - a.startMs) :
    a.update s now = ⟨setSame s.anims { a with startMs := now, reverse := !a.reverse },
      s.nextId, s.log ++ [(a.name, stepVal a 1)], s.endLog⟩ := by
  simp only [Animation.update, if_pos ht, hm, step_pure hcb]

/-- Completion tick of a plain observing `RepeatMode.Restart` instance. -/
theorem update_done_restart {a : Animation} (hcb : ∀ v, a.callback v = [])
    (hm : a.repeatMode = .Restart) {s : SchedState} {now : ℚ}
    (ht : a.durationMs ≤ now - a.startMs) :
    a.update s now = ⟨setSame s.anims { a with startMs := now },
      s.nextId, s.log ++ [(a.name, stepVal a 1)], s.endLog⟩ := by
  simp only [Animation.update, if_pos ht, hm, step_pure hcb]

/-- A mid-flight tick (elapsed still below the duration) only steps. -/
theorem update_notdone {a : Animation} {s : SchedState} {now : ℚ}
    (ht : ¬ a.durationMs ≤ now - a.startMs) :
    a.update s now = a.step s ((now - a.startMs) / a.durationMs) now := by
  simp only [Animation.update, if_neg ht]

/-- A keyed registry stores each instance under its own name. -/
theorem keyed_lookup {l : List (String × Animation)} (hk : Keyed l) {n : String}
    {a : Animation} (h : lookupA l n = some a) : a.name = n :=
  hk (n, a) (lookupA_mem h)

/-- The facts needed about an in-place instance mutation `setSame l a'` when
`a'` is the registered instance `a` with only `startMs`/`reverse` rewritten. -/
theorem setSame_facts {l : List (String × Animation)} {n : String} {a : Animation}
    (a' : Animation)
    (hl : lookupA l n = some a) (hap : AllPure l) (hk : Keyed l)
    (hnd : (namesOf l).Nodup) (hname : a'.name = a.name) (hid : a'.id = a.id)
    (hcore : sameCore a a') (hpure : pureAnim a') :
    AllPure (setSame l a') ∧ Keyed (setSame l a') ∧ (namesOf (setSame l a')).Nodup ∧
    (∀ m, m ∈ namesOf (setSame l a') ↔ m ∈ namesOf l) ∧
    (∀ m b, lookupA (setSame l a') m = some b →
      ∃ c, lookupA l m = some c ∧ sameCore c b) := by
  have hmem := lookupA_mem hl
  have hn : a.name = n := hk _ hmem
  refine ⟨?_, keyed_setSame hk a', ?_, ?_, ?_⟩
  · intro p hp
    rcases mem_setSame hp with h' | h'
    · exact hap p h'
    · rw [h']
      exact hpure
  · rw [namesOf_setSame]
    exact hnd
  · intro m
    rw [namesOf_setSame]
  · intro m b hb
    by_cases hmn : m = a'.name
    · subst hmn
      have hla : lookupA l a'.name = some a := by rw [hname, hn]; exact hl
      have := lookupA_setSame_self hla hid.symm
      rw [this] at hb
      exact ⟨a, hla, by rw [← (Option.some_inj.mp hb)]; exact hcore⟩
    · rw [lookupA_setSame_ne hmn] at hb
      exact ⟨b, hb, sameCore_refl b⟩

/-- Advancing one plain observing instance preserves the registry invariants
(purity, keying, key uniqueness), can only shrink the key set, leaves every
other name's registration and `onEnd` count untouched, and rewrites at most
the `startMs`/`reverse` fields of a still-registered instance. -/
theorem update_pure_inv (now : ℚ) {s : SchedState} {n : String} {a : Animation}
    (hl : lookupA s.anims n = some a)
    (hap : AllPure s.anims) (hk : Keyed s.anims) (hnd : (namesOf s.anims).Nodup) :
    AllPure (a.update s now).anims ∧
    Keyed (a.update s now).anims ∧
    (namesOf (a.update s now).anims).Nodup ∧
    (∀ m, m ∈ namesOf (a.update s now).anims → m ∈ namesOf s.anims) ∧
    (∀ m, m ≠ n → m ∈ namesOf s.anims → m ∈ namesOf (a.update s now).anims) ∧
    (∀ m, m ≠ n → (a.update s now).endLog.count m = s.endLog.count m) ∧
    (∀ m b, lookupA (a.update s now).anims m = some b →
      ∃ c, lookupA s.anims m = some c ∧ sameCore c b) := by
  have hmem := lookupA_mem hl
  have hp : pureAnim a := hap _ hmem
  have hn : a.name = n := hk _ hmem
  by_cases ht : a.durationMs ≤ now - a.startMs
  · cases hm : a.repeatMode with
    | None =>
        rw [update_done_none hp hm ht]
        refine ⟨?_, keyed_eraseA hk a.name, namesOf_eraseA_nodup hnd, ?_, ?_, ?_, ?_⟩
        · intro p hp'
          exact hap p (mem_eraseA hp')
        · intro m hm'
          rw [← lookupA_isSome_iff] at hm' ⊢
          rw [lookupA_eraseA] at hm'
          by_cases hq : m = a.name
          · simp [hq] at hm'
          · rw [if_neg hq] at hm'
            exact hm'
        · intro m hmn hm'
          rw [← lookupA_isSome_iff] at hm' ⊢
          rw [lookupA_eraseA]
          rw [if_neg (by rw [hn]; exact hmn)]
          exact hm'
        · intro m hmn
          simp only [List.count_append]
          have : List.count m [a.name] = 0 := by
            simp [List.count_cons, hn, hmn]
          omega
        · intro m b hb
          simp only [lookupA_eraseA] at hb
          by_cases hq : m = a.name
          · rw [if_pos hq] at hb
            cases hb
          · rw [if_neg hq] at hb
            exact ⟨b, hb, sameCore_refl b⟩
    | Reverse =>
        rw [update_done_reverse hp.1 hm ht]
        have hfacts := setSame_facts { a with startMs := now, reverse := !a.reverse }
          hl hap hk hnd rfl rfl
          ⟨rfl, rfl, rfl, rfl, rfl, rfl, rfl, rfl, rfl, rfl⟩ ⟨hp.1, hp.2⟩
        refine ⟨hfacts.1, hfacts.2.1, hfacts.2.2.1, ?_, ?_, fun _ _ => rfl, hfacts.2.2.2.2⟩
        · intro m hm'
          exact (hfacts.2.2.2.1 m).mp hm'
        · intro m _ hm'
          exact (hfacts.2.2.2.1 m).mpr hm'
    | Restart =>
        rw [update_done_restart hp.1 hm ht]
        have hfacts := setSame_facts { a with startMs := now }
          hl hap hk hnd rfl rfl
          ⟨rfl, rfl, rfl, rfl, rfl, rfl, rfl, rfl, rfl, rfl⟩ ⟨hp.1, hp.2⟩
        refine ⟨hfacts.1, hfacts.2.1, hfacts.2.2.1, ?_, ?_, fun _ _ => rfl, hfacts.2.2.2.2⟩
        · intro m hm'
          exact (hfacts.2.2.2.1 m).mp hm'
        · intro m _ hm'
          exact (hfacts.2.2.2.1 m).mpr hm'
  · rw [update_notdone ht, step_pure hp.1]
    exact ⟨hap, hk, hnd, fun m hm' => hm', fun m _ hm' => hm', fun _ _ => rfl,
      fun m b hb => ⟨b, hb, sameCore_refl b⟩⟩

/-- Advancing a duplicate-free snapshot of plain observing instances never
fails, preserves the registry invariants, only shrinks the key set, leaves
the `onEnd` count of every name outside the snapshot untouched, and rewrites
at most `startMs`/`reverse` on instances that stay registered. -/
theorem tickAux_pure (now : ℚ) (ns : List String) (s : SchedState)
    (hsub : ∀ n ∈ ns, n ∈ namesOf s.anims) (hnsnd : ns.Nodup)
    (hap : AllPure s.anims) (hk : Keyed s.anims) (hnd : (namesOf s.anims).Nodup) :
    ∃ s', tickAux now ns s = .ok s' ∧
      AllPure s'.anims ∧ Keyed s'.anims ∧ (namesOf s'.anims).Nodup ∧
      (∀ m, m ∈ namesOf s'.anims → m ∈ namesOf s.anims) ∧
      (∀ m, m ∉ ns → s'.endLog.count m = s.endLog.count m) ∧
      (∀ m b, lookupA s'.anims m = some b →
        ∃ c, lookupA s.anims m = some c ∧ sameCore c b) := by
  induction ns generalizing s with
  | nil =>
      exact ⟨s, rfl, hap, hk, hnd, fun m hm => hm, fun m _ => rfl,
        fun m b hb => ⟨b, hb, sameCore_refl b⟩⟩
  | cons n rest ih =>
      have hmem : n ∈ namesOf s.anims := hsub n (List.mem_cons_self _ _)
      rw [← lookupA_isSome_iff] at hmem
      obtain ⟨a, hl⟩ := Option.isSome_iff_exists.mp hmem
      obtain ⟨h1, h2, h3, h4, h5, h6, h7⟩ := update_pure_inv now hl hap hk hnd
      have hnotin : n ∉ rest := (List.nodup_cons.mp hnsnd).1
      have hsub' : ∀ m ∈ rest, m ∈ namesOf (a.update s now).anims := by
        intro m hm
        have hmn : m ≠ n := fun he => hnotin (he ▸ hm)
        exact h5 m hmn (hsub m (List.mem_cons_of_mem _ hm))
      obtain ⟨s', hok, g1, g2, g3, g4, g5, g6⟩ :=
        ih (a.update s now) hsub' (List.nodup_cons.mp hnsnd).2 h1 h2 h3
      refine ⟨s', ?_, g1, g2, g3, ?_, ?_, ?_⟩
      · simp only [tickAux, hl]
        exact hok
      · intro m hm
        exact h4 m (g4 m hm)
      · intro m hm
        have hm1 : m ∉ rest := fun hx => hm (List.mem_cons_of_mem _ hx)
        have hmn : m ≠ n := fun hx => hm (hx ▸ List.mem_cons_self _ _)
        rw [g5 m hm1, h6 m hmn]
      · intro m b hb
        obtain ⟨c, hc, hcb⟩ := g6 m b hb
        obtain ⟨d, hd, hdc⟩ := h7 m c hc
        exact ⟨d, hd, sameCore_trans hdc hcb⟩

/-- With a keyed registry, a tick over a snapshot — whatever re-entrant
registry operations the callbacks perform — keeps the registry keyed and
appends callback deliveries only under snapshot names: a name outside the
snapshot receives no value during this tick. -/
theorem tickAux_count (now : ℚ) (ns : List String) (s : SchedState)
    (hk : Keyed s.anims) :
    ∀ s', tickAux now ns s = .ok s' →
      Keyed s'.anims ∧
      ∀ m, m ∉ ns → ∀ v : ℚ, s'.log.count (m, v) = s.log.count (m, v) := by
  induction ns generalizing s with
  | nil =>
      intro s' h
      cases h
      exact ⟨hk, fun m _ v => rfl⟩
  | cons n rest ih =>
      intro s' h
      simp only [tickAux] at h
      cases hl : lookupA s.anims n with
      | none => rw [hl] at h; cases h
      | some a =>
          rw [hl] at h
          obtain ⟨hk', hcount⟩ := ih (a.update s now) (keyed_update hk a now) s' h
          refine ⟨hk', fun m hm v => ?_⟩
          have hm1 : m ∉ rest := fun hx => hm (List.mem_cons_of_mem _ hx)
          have hmn : m ≠ n := fun hx => hm (hx ▸ List.mem_cons_self _ _)
          rw [hcount m hm1 v]
          obtain ⟨v0, hlog, _⟩ := update_log_shape a s now
          rw [hlog, List.count_append]
          have hname : a.name = n := keyed_lookup hk hl
          have : List.count (m, v) [(a.name, v0)] = 0 := by
            simp [List.count_cons, Prod.ext_iff, hname, hmn]
          omega

/-- Deleting an absent key leaves the registry untouched. -/
theorem eraseA_not_mem {l : List (String × Animation)} {n : String}
    (h : n ∉ namesOf l) : eraseA l n = l := by
  induction l with
  | nil => rfl
  | cons p rest ih =>
      simp only [namesOf, List.map_cons, List.mem_cons, not_or] at h
      have hp : ¬ p.1 = n := fun he => h.1 he.symm
      rw [show eraseA (p :: rest) n = p :: eraseA rest n from by simp [eraseA, hp]]
      rw [ih h.2]

/-- A sequence of frame ticks at the given clock times; a failing tick aborts
the sequence, as an exception escaping the frame handler would. -/
def ticks (s : SchedState) : List ℚ → Except String SchedState
  | [] => .ok s
  | t :: rest =>
      match tick s t with
      | .ok s' => ticks s' rest
      | .error e => .error e

/-- Any sequence of frame ticks over a registry of plain observing instances
succeeds, can only shrink the key set, and delivers no callback value and no
`onEnd` call under a name that is not registered at the start. -/
theorem ticks_pure (ts : List ℚ) (s : SchedState)
    (hap : AllPure s.anims) (hk : Keyed s.anims) (hnd : (namesOf s.anims).Nodup) :
    ∃ s2, ticks s ts = .ok s2 ∧
      AllPure s2.anims ∧ Keyed s2.anims ∧ (namesOf s2.anims).Nodup ∧
      (∀ m, m ∈ namesOf s2.anims → m ∈ namesOf s.anims) ∧
      (∀ m, m ∉ namesOf s.anims → s2.endLog.count m = s.endLog.count m ∧
        ∀ v : ℚ, s2.log.count (m, v) = s.log.count (m, v)) := by
  induction ts generalizing s with
  | nil =>
      exact ⟨s, rfl, hap, hk, hnd, fun m hm => hm, fun m _ => ⟨rfl, fun v => rfl⟩⟩
  | cons t rest ih =>
      obtain ⟨s', hok, h1, h2, h3, h4, h5, _⟩ :=
        tickAux_pure t (namesOf s.anims) s (fun n hn => hn) hnd hap hk hnd
      obtain ⟨h2', hcnt⟩ := tickAux_count t (namesOf s.anims) s hk s' hok
      obtain ⟨s2, hok2, g1, g2, g3, g4, g5⟩ := ih s' h1 h2 h3
      refine ⟨s2, ?_, g1, g2, g3, ?_, ?_⟩
      · simp only [ticks, tick]
        simp only [namesOf] at hok
        rw [hok]
        exact hok2
      · intro m hm
        exact h4 m (g4 m hm)
      · intro m hm
        have hm' : m ∉ namesOf s'.anims := fun hx => hm (h4 m hx)
        refine ⟨?_, fun v => ?_⟩
        · rw [(g5 m hm').1, h5 m hm]
        · rw [(g5 m hm').2 v, hcnt m hm v]

end ease.animation

section CurveClaims

open ease

/-- C7 counterexample: the mirror identity as stated,
`easeOut(f)(a,b,t) = b + a - easeIn(f)(b,a,1-t)`, fails already for the
identity shaping function `sq1` at `a = 0`, `b = 1`, `t = 1/4`
(the left side is `1/4`, the right side is `3/4`). -/
theorem C7_mirror_identity_cex :
    ease.curves.easeOut ease.formula.sq1 0 1 (1/4) ≠
      1 + 0 - ease.curves.easeIn ease.formula.sq1 1 0 (1 - 1/4) := by
  norm_num [ease.curves.easeOut, ease.curves.easeIn, ease.util.lerp,
    ease.util.flip, ease.formula.sq1]

/-- C7 amended: the mirror identity holds with the `startValue`/`endValue`
arguments kept in the same order on both sides:
`easeOut(f)(a,b,t) = a + b - easeIn(f)(a,b,1-t)` for every shaping function
`f`, all `a`, `b` and all `t ∈ [0,1]` (exactly, over the reals). -/
theorem C7_mirror_identity_amended (fn : ℝ → ℝ) (a b t : ℝ)
    (h0 : 0 ≤ t) (h1 : t ≤ 1) :
    ease.curves.easeOut fn a b t = a + b - ease.curves.easeIn fn a b (1 - t) := by
  simp only [ease.curves.easeOut, ease.curves.easeIn, ease.util.lerp, ease.util.flip]
  ring

/-- C7 witness: the amended mirror identity instantiated for the quadratic
shaping function at `a = 0`, `b = 1`, `t = 1/4`. -/
theorem C7_mirror_identity_witness :
    (0:ℝ) ≤ 1/4 ∧ ((1:ℝ)/4 ≤ 1 ∧
      ease.curves.easeOut ease.formula.sq2 0 1 (1/4) =
        0 + 1 - ease.curves.easeIn ease.formula.sq2 0 1 (1 - 1/4)) :=
  ⟨by norm_num, by norm_num,
    C7_mirror_identity_amended ease.formula.sq2 0 1 (1/4) (by norm_num) (by norm_num)⟩

/-- C8 counterexample: the ease-in `back` curve never exceeds `1` anywhere in
the open interval `(0,1)` — `back t - 1 = (t-1)((c1+1)t² + t + 1) < 0` there
— so the claimed overshoot above `1` near `t = 1` does not exist. -/
theorem C8_catalog_endpoints_cex :
    ¬ ∃ t : ℝ, 0 < t ∧ t < 1 ∧ 1 < ease.formula.back t := by
  rintro ⟨t, h0, h1, hgt⟩
  have key : ease.formula.back t - 1 = (t - 1) * ((1.70158 + 1) * t^2 + t + 1) := by
    simp only [ease.formula.back]
    ring
  have hpos : (0:ℝ) < (1.70158 + 1) * t^2 + t + 1 := by nlinarith [sq_nonneg t]
  have hneg : (t - 1) * ((1.70158 + 1) * t^2 + t + 1) < 0 :=
    mul_neg_of_neg_of_pos (by linarith) hpos
  linarith

/-- C8 amended: every shaping function in the catalog (`sq1..sq5`, `sine`,
`expo`, `circ`, `elastic`) satisfies `f(0) = 0` and `f(1) = 1`; `back` also
satisfies `back(0) = 0` and `back(1) = 1` and is negative at points near the
start (e.g. `back(1/2) < 0`), but — contrary to the claim — it never exceeds
`1` inside `(0,1)`: `back t < 1` for all `t ∈ (0,1)` (the overshoot above `1`
belongs to the derived ease-out direction, not to the ease-in formula). -/
theorem C8_catalog_endpoints_amended :
    ease.formula.sq1 0 = 0 ∧ ease.formula.sq1 1 = 1 ∧
    ease.formula.sq2 0 = 0 ∧ ease.formula.sq2 1 = 1 ∧
    ease.formula.sq3 0 = 0 ∧ ease.formula.sq3 1 = 1 ∧
    ease.formula.sq4 0 = 0 ∧ ease.formula.sq4 1 = 1 ∧
    ease.formula.sq5 0 = 0 ∧ ease.formula.sq5 1 = 1 ∧
    ease.formula.sine 0 = 0 ∧ ease.formula.sine 1 = 1 ∧
    ease.formula.expo 0 = 0 ∧ ease.formula.expo 1 = 1 ∧
    ease.formula.circ 0 = 0 ∧ ease.formula.circ 1 = 1 ∧
    ease.formula.elastic 0 = 0 ∧ ease.formula.elastic 1 = 1 ∧
    ease.formula.back 0 = 0 ∧ ease.formula.back 1 = 1 ∧
    ease.formula.back (1/2) < 0 ∧
    ∀ t : ℝ, 0 < t → t < 1 → ease.formula.back t < 1 := by
  refine ⟨rfl, rfl, ?_, ?_, ?_, ?_, ?_, ?_, ?_, ?_, ?_, ?_, ?_, ?_, ?_, ?_,
    ?_, ?_, ?_, ?_, ?_, ?_⟩
  · norm_num [ease.formula.sq2]
  · norm_num [ease.formula.sq2]
  · norm_num [ease.formula.sq3]
  · norm_num [ease.formula.sq3]
  · norm_num [ease.formula.sq4]
  · norm_num [ease.formula.sq4]
  · norm_num [ease.formula.sq5]
  · norm_num [ease.formula.sq5]
  · simp [ease.formula.sine]
  · simp [ease.formula.sine, Real.cos_pi_div_two]
  · simp [ease.formula.expo]
  · norm_num [ease.formula.expo, Real.rpow_zero]
  · norm_num [ease.formula.circ, Real.sqrt_one]
  · norm_num [ease.formula.circ, Real.sqrt_zero]
  · simp [ease.formula.elastic]
  · norm_num [ease.formula.elastic]
  · norm_num [ease.formula.back]
  · norm_num [ease.formula.back]
  · norm_num [ease.formula.back]
  · intro t h0 h1
    have key : ease.formula.back t - 1 = (t - 1) * ((1.70158 + 1) * t^2 + t + 1) := by
      simp only [ease.formula.back]
      ring
    have hpos : (0:ℝ) < (1.70158 + 1) * t^2 + t + 1 := by nlinarith [sq_nonneg t]
    have hneg : (t - 1) * ((1.70158 + 1) * t^2 + t + 1) < 0 :=
      mul_neg_of_neg_of_pos (by linarith) hpos
    linarith

/-- C8 witness: the final-bound clause of the amended catalog theorem
instantiated at `t = 9/10`. -/
theorem C8_catalog_endpoints_witness :
    (0:ℝ) < 9/10 ∧ ((9:ℝ)/10 < 1 ∧ ease.formula.back (9/10) < 1) :=
  ⟨by norm_num, by norm_num,
    C8_catalog_endpoints_amended.2.2.2.2.2.2.2.2.2.2.2.2.2.2.2.2.2.2.2.2.2
      (9/10) (by norm_num) (by norm_num)⟩

end CurveClaims

namespace ease.animation

/-- Rational model of `ease.util.lerp`, used as a concrete linear blend for
scheduler scenarios (the scheduler treats blends as opaque callables). -/
def lerpQ (a b t : ℚ) : ℚ := a + (b - a) * t

/-- A plain observing value callback: no re-entrant registry operations. -/
def cbPure : ℚ → List RegOp := fun _ => []

/-- A plain observing `onEnd` handler. -/
def onEndPure : String → List RegOp := fun _ => []

/-- Fixture: a `RepeatMode.None` animation `"x"` from `0` to `100` over
`1000` ms with a linear blend, started at clock `0`. -/
def aW : Animation :=
  ⟨0, "x", 0, 100, 1000, lerpQ, cbPure, .None, onEndPure, 0, 100, false⟩

/-- Fixture registry holding only `aW` under `"x"`. -/
def sW : SchedState := ⟨[("x", aW)], 1, [], []⟩

/-- C1: on the completion tick of a plain observing `RepeatMode.None`
animation (elapsed `now - startMs` at least `durationMs`), the callback
receives the blend evaluated at progress `1`, the instance is removed from
the registry, `onEnd(name)` is recorded exactly once, `animExists` is false
afterwards, and no later tick sequence ever delivers another `onEnd` for the
name (or re-registers it). -/
theorem C1_none_completion (s : SchedState) (name : String) (a : Animation) (now : ℚ)
    (hl : lookupA s.anims name = some a)
    (hm : a.repeatMode = .None) (hrev : a.reverse = false)
    (hap : AllPure s.anims) (hk : Keyed s.anims) (hnd : (namesOf s.anims).Nodup)
    (ht : a.durationMs ≤ now - a.startMs) :
    (a.update s now).log = s.log ++ [(name, a.curve a.startValue a.endValue 1)] ∧
    animExists (a.update s now) name = false ∧
    (a.update s now).endLog = s.endLog ++ [name] ∧
    ∀ ts : List ℚ, ∃ s2, ticks (a.update s now) ts = .ok s2 ∧
      s2.endLog.count name = (a.update s now).endLog.count name ∧
      animExists s2 name = false := by
  have hmem := lookupA_mem hl
  have hp : pureAnim a := hap _ hmem
  have hn : a.name = name := hk _ hmem
  have hval : stepVal a 1 = a.curve a.startValue a.endValue 1 := by
    simp [stepVal, flipIf, hrev]
  rw [update_done_none hp hm ht]
  have hnotin : name ∉ namesOf (eraseA s.anims a.name) := by
    intro hx
    rw [← lookupA_isSome_iff, lookupA_eraseA, hn] at hx
    simp at hx
  refine ⟨by rw [hval, hn], ?_, by rw [hn], ?_⟩
  · simp [animExists, lookupA_eraseA, hn]
  · intro ts
    have hap' : AllPure (eraseA s.anims a.name) := fun p hp' => hap p (mem_eraseA hp')
    have hk' : Keyed (eraseA s.anims a.name) := keyed_eraseA hk a.name
    have hnd' : (namesOf (eraseA s.anims a.name)).Nodup := namesOf_eraseA_nodup hnd
    obtain ⟨s2, hok, _, _, _, g4, g5⟩ :=
      ticks_pure ts ⟨eraseA s.anims a.name, s.nextId,
        s.log ++ [(a.name, stepVal a 1)], s.endLog ++ [a.name]⟩ hap' hk' hnd'
    refine ⟨s2, hok, (g5 name hnotin).1, ?_⟩
    have hno2 : name ∉ namesOf s2.anims := fun hx => hnotin (g4 name hx)
    have hnone : lookupA s2.anims name = none := (lookupA_eq_none_iff _ _).mpr hno2
    simp [animExists, hnone]

/-- C1 witness: the completion tick of the fixture animation at clock
`1000` delivers `lerp(0,100,1) = 100`, removes the instance and records its
single `onEnd`. -/
theorem C1_none_completion_witness :
    (aW.update sW 1000).log = sW.log ++ [("x", aW.curve aW.startValue aW.endValue 1)] ∧
    animExists (aW.update sW 1000) "x" = false ∧
    (aW.update sW 1000).endLog = sW.endLog ++ ["x"] :=
  have h := C1_none_completion sW "x" aW 1000 (by simp [sW, aW, lookupA]) rfl rfl
    (by intro p hp
        simp only [sW, List.mem_singleton] at hp
        rw [hp]
        exact ⟨fun v => rfl, fun n => rfl⟩)
    (by intro p hp
        simp only [sW, List.mem_singleton] at hp
        rw [hp]
        rfl)
    (by simp [sW, namesOf])
    (by norm_num [sW, aW])
  ⟨h.1, h.2.1, h.2.2.1⟩

/-- C2: on any tick where elapsed time `now - startMs` is at least
`durationMs` — however large the overshoot — the progress handed to the
step is exactly `1`, so the value delivered to the callback is the blend at
progress `1` (flipped to `1 - 1` only when the `reverse` flag is set), for
every repeat mode and arbitrary (even re-entrant) callbacks. -/
theorem C2_progress_clamped_at_completion (s : SchedState) (a : Animation) (now : ℚ)
    (ht : a.durationMs ≤ now - a.startMs) :
    (a.update s now).log = s.log ++
      [(a.name, a.curve a.startValue a.endValue (if a.reverse then 1 - 1 else 1))] := by
  obtain ⟨v, hlog, hv⟩ := update_log_shape a s now
  rw [hlog, hv ht]
  rfl

/-- C2 witness: the fixture animation ticked far past its duration still
logs the blend at progress `1`. -/
theorem C2_progress_clamped_witness :
    (aW.update sW 5000).log = sW.log ++
      [(aW.name, aW.curve aW.startValue aW.endValue (if aW.reverse then 1 - 1 else 1))] :=
  C2_progress_clamped_at_completion sW aW 5000 (by norm_num [sW, aW])

end ease.animation

namespace ease.animation

/-- Fixture: the instance `animate` registers in scenario C3 (name `"x"`,
`0 → 100`, duration `1000`, linear blend, `RepeatMode.Reverse`, clock `0`). -/
def aR0 : Animation :=
  ⟨0, "x", 0, 100, 1000, lerpQ, cbPure, .Reverse, onEndPure, 0, 100, false⟩

/-- Scenario C3, initial state: `Reverse`-mode `"x"` started at clock `0`. -/
def c3s0 : SchedState :=
  animate emptyState "x" 0 100 1000 lerpQ cbPure .Reverse none 0

/-- Scenario C3 after the tick at clock `0`. -/
def c3r1 : Except String SchedState := tick c3s0 0

/-- Scenario C3 after the ticks at clocks `0, 1000`. -/
def c3r2 : Except String SchedState := tickO c3r1 1000

/-- Scenario C3 after the ticks at clocks `0, 1000, 2000`. -/
def c3r3 : Except String SchedState := tickO c3r2 2000

/-- C3: the `Reverse` scenario (0→100, duration 1000, linear blend) ticked at
clocks `0, 1000, 2000` delivers callback values `0, 100, 0`, keeps the
instance registered after every tick, and on each completion tick resets
`startMs` to the current clock and toggles the `reverse` flag; moreover
reversal is applied only by flipping the progress (`t ↦ 1 - t`) — the blend
always receives the stored `startValue`/`endValue` in that order. -/
theorem C3_reverse_scenario :
    (c3r1.map SchedState.log = .ok [("x", 0)] ∧
     c3r2.map SchedState.log = .ok [("x", 0), ("x", 100)] ∧
     c3r3.map SchedState.log = .ok [("x", 0), ("x", 100), ("x", 0)] ∧
     c3r1.map (fun s => animExists s "x") = .ok true ∧
     c3r2.map (fun s => animExists s "x") = .ok true ∧
     c3r3.map (fun s => animExists s "x") = .ok true ∧
     c3r2.map (fun s => (lookupA s.anims "x").map (fun a => (a.startMs, a.reverse)))
       = .ok (some (1000, true)) ∧
     c3r3.map (fun s => (lookupA s.anims "x").map (fun a => (a.startMs, a.reverse)))
       = .ok (some (2000, false))) ∧
    ∀ (s : SchedState) (a : Animation) (t now : ℚ), a.reverse = true →
      (a.step s t now).log =
        s.log ++ [(a.name, a.curve a.startValue a.endValue (1 - t))] := by
  have h0 : c3s0 = ⟨[("x", aR0)], 1, [], []⟩ := by
    norm_num [c3s0, animate, emptyState, mkAnim, lookupA, aR0]
    rfl
  have h1 : tick c3s0 0 = .ok ⟨[("x", aR0)], 1, [("x", 0)], []⟩ := by
    rw [h0]
    norm_num [tick, tickAux, lookupA, Animation.update, Animation.step,
      runOps, cbPure, lerpQ, aR0]
  have h2 : tick (⟨[("x", aR0)], 1, [("x", 0)], []⟩ : SchedState) 1000 =
      .ok ⟨[("x", ⟨0, "x", 0, 100, 1000, lerpQ, cbPure, .Reverse, onEndPure,
        1000, 100, true⟩)], 1, [("x", 0), ("x", 100)], []⟩ := by
    norm_num [tick, tickAux, lookupA, Animation.update, Animation.step,
      runOps, cbPure, lerpQ, aR0, setSame]
  have h3 : tick (⟨[("x", ⟨0, "x", 0, 100, 1000, lerpQ, cbPure, .Reverse,
      onEndPure, 1000, 100, true⟩)], 1, [("x", 0), ("x", 100)], []⟩ : SchedState)
      2000 =
      .ok ⟨[("x", ⟨0, "x", 0, 100, 1000, lerpQ, cbPure, .Reverse, onEndPure,
        2000, 100, false⟩)], 1, [("x", 0), ("x", 100), ("x", 0)], []⟩ := by
    norm_num [tick, tickAux, lookupA, Animation.update, Animation.step,
      runOps, cbPure, lerpQ, setSame]
  have e1 : c3r1 = .ok ⟨[("x", aR0)], 1, [("x", 0)], []⟩ := h1
  have e2 : c3r2 = .ok ⟨[("x", ⟨0, "x", 0, 100, 1000, lerpQ, cbPure, .Reverse,
      onEndPure, 1000, 100, true⟩)], 1, [("x", 0), ("x", 100)], []⟩ := by
    rw [c3r2, e1, tickO]
    exact h2
  have e3 : c3r3 = .ok ⟨[("x", ⟨0, "x", 0, 100, 1000, lerpQ, cbPure, .Reverse,
      onEndPure, 2000, 100, false⟩)], 1, [("x", 0), ("x", 100), ("x", 0)], []⟩ := by
    rw [c3r3, e2, tickO]
    exact h3
  constructor
  · refine ⟨?_, ?_, ?_, ?_, ?_, ?_, ?_, ?_⟩
    · rw [e1]; rfl
    · rw [e2]; rfl
    · rw [e3]; rfl
    · rw [e1]; simp [Except.map, animExists, lookupA, aR0]
    · rw [e2]; simp [Except.map, animExists, lookupA]
    · rw [e3]; simp [Except.map, animExists, lookupA]
    · rw [e2]; simp [Except.map, lookupA]
    · rw [e3]; simp [Except.map, lookupA]
  · intro s a t now hrev
    simp only [Animation.step]
    rw [(runOps_log now (a.callback (a.curve a.startValue a.endValue
      (if a.reverse then 1 - t else t)))
      ⟨s.anims, s.nextId, s.log ++ [(a.name, a.curve a.startValue a.endValue
        (if a.reverse then 1 - t else t))], s.endLog⟩).1]
    simp [hrev]

/-- Fixture: a reversed instance, for instantiating the flip clause of C3. -/
def aRev : Animation :=
  ⟨7, "y", 0, 100, 1000, lerpQ, cbPure, .Reverse, onEndPure, 0, 100, true⟩

/-- C3 witness: the flip clause instantiated at the reversed fixture — a
mid-leg step at progress `1/4` delivers the blend of `1 - 1/4`. -/
theorem C3_reverse_scenario_witness :
    (aRev.step emptyState (1/4) 0).log =
      emptyState.log ++ [(aRev.name, aRev.curve aRev.startValue aRev.endValue (1 - 1/4))] :=
  C3_reverse_scenario.2 emptyState aRev (1/4) 0 rfl

end ease.animation

namespace ease.animation

/-- C4: starting an animation under an occupied name is a silent no-op — the
whole scheduler state (registry, instance fields, logs) is unchanged — and
`animate` preserves key uniqueness, so at most one animation exists under a
given name at any time. -/
theorem C4_duplicate_start_noop (s : SchedState) (name : String)
    (sv ev dur : ℚ) (curve : ℚ → ℚ → ℚ → ℚ) (cb : ℚ → List RegOp)
    (mode : RepeatMode) (onEnd : Option (String → List RegOp)) (now : ℚ) :
    ((lookupA s.anims name).isSome = true →
      animate s name sv ev dur curve cb mode onEnd now = s) ∧
    ((namesOf s.anims).Nodup →
      (namesOf (animate s name sv ev dur curve cb mode onEnd now).anims).Nodup) := by
  constructor
  · intro h
    simp [animate, h]
  · intro hnd
    simp only [animate]
    split
    · exact hnd
    · rename_i h
      have hnone : lookupA s.anims name = none := by
        cases hq : lookupA s.anims name with
        | none => rfl
        | some b => rw [hq] at h; simp at h
      have hnotin : name ∉ namesOf s.anims := (lookupA_eq_none_iff _ _).mp hnone
      simp only [namesOf, List.map_append, List.map_cons, List.map_nil]
      refine List.Nodup.append hnd (List.nodup_singleton name) ?_
      intro x hx hy
      rw [List.mem_singleton] at hy
      exact hnotin (hy ▸ hx)

/-- C4 witness: re-starting the occupied `"x"` with different parameters
leaves the fixture state untouched, and key uniqueness is preserved. -/
theorem C4_duplicate_start_noop_witness :
    animate sW "x" 5 6 7 lerpQ cbPure RepeatMode.Restart none 99 = sW ∧
    (namesOf (animate sW "x" 5 6 7 lerpQ cbPure RepeatMode.Restart none 99).anims).Nodup :=
  ⟨(C4_duplicate_start_noop sW "x" 5 6 7 lerpQ cbPure RepeatMode.Restart none 99).1
      (by simp [sW, lookupA]),
   (C4_duplicate_start_noop sW "x" 5 6 7 lerpQ cbPure RepeatMode.Restart none 99).2
      (by simp [sW, namesOf])⟩

/-- C5: `cancel(name)` removes the named animation immediately (whatever its
repeat mode or progress), delivers no callback value and no `onEnd` (both
logs unchanged), is a total function that is a no-op on an absent name, and
after a cancel no later tick sequence delivers any further value or `onEnd`
under that name (for a registry of plain observing instances). -/
theorem C5_cancel_silent (s : SchedState) (name : String) :
    animExists (cancel s name) name = false ∧
    (cancel s name).log = s.log ∧
    (cancel s name).endLog = s.endLog ∧
    (lookupA s.anims name = none → cancel s name = s) ∧
    (AllPure s.anims → Keyed s.anims → (namesOf s.anims).Nodup →
      ∀ ts : List ℚ, ∃ s2, ticks (cancel s name) ts = .ok s2 ∧
        (∀ v : ℚ, s2.log.count (name, v) = s.log.count (name, v)) ∧
        s2.endLog.count name = s.endLog.count name) := by
  refine ⟨?_, rfl, rfl, ?_, ?_⟩
  · simp [animExists, cancel, lookupA_eraseA]
  · intro h
    have hnotin := (lookupA_eq_none_iff _ _).mp h
    simp only [cancel]
    rw [eraseA_not_mem hnotin]
  · intro hap hk hnd ts
    have hap' : AllPure (cancel s name).anims := fun p hp' => hap p (mem_eraseA hp')
    have hk' : Keyed (cancel s name).anims := keyed_eraseA hk name
    have hnd' : (namesOf (cancel s name).anims).Nodup := namesOf_eraseA_nodup hnd
    obtain ⟨s2, hok, _, _, _, _, g5⟩ := ticks_pure ts (cancel s name) hap' hk' hnd'
    have hnotin : name ∉ namesOf (cancel s name).anims := by
      intro hx
      rw [← lookupA_isSome_iff] at hx
      simp only [cancel] at hx
      rw [lookupA_eraseA] at hx
      simp at hx
    exact ⟨s2, hok, fun v => (g5 name hnotin).2 v, (g5 name hnotin).1⟩

/-- C5 witness: cancelling the absent `"z"` is a no-op on the fixture state,
and a subsequent tick still succeeds. -/
theorem C5_cancel_silent_witness :
    cancel sW "z" = sW ∧ (ticks (cancel sW "z") [5]).isOk = true :=
  have h := C5_cancel_silent sW "z"
  ⟨h.2.2.2.1 (by simp [sW, lookupA]),
   by obtain ⟨s2, hok, _, _⟩ := h.2.2.2.2
        (by intro p hp
            simp only [sW, List.mem_singleton] at hp
            rw [hp]
            exact ⟨fun v => rfl, fun n => rfl⟩)
        (by intro p hp
            simp only [sW, List.mem_singleton] at hp
            rw [hp]
            rfl)
        (by simp [sW, namesOf]) [5]
      rw [hok]
      rfl⟩

end ease.animation

namespace ease.animation

/-- A re-entrant callback that cancels the animation named `"b"`. -/
def cbCancelB : ℚ → List RegOp := fun _ => [RegOp.cancelOp "b"]

/-- Fixture for C6: animation `"a"`, whose callback cancels `"b"`. -/
def aA : Animation :=
  ⟨0, "a", 0, 1, 1000, lerpQ, cbCancelB, .Restart, onEndPure, 0, 1, false⟩

/-- Fixture for C6: a plain animation `"b"`, registered after `"a"`. -/
def aB : Animation :=
  ⟨1, "b", 0, 1, 1000, lerpQ, cbPure, .Restart, onEndPure, 0, 1, false⟩

/-- Fixture registry for C6 holding `"a"` then `"b"`. -/
def c6s : SchedState := ⟨[("a", aA), ("b", aB)], 2, [], []⟩

/-- C6 counterexample: an entry cancelled by an earlier callback in the same
tick is *not* tolerated and skipped.  When `"a"`'s callback cancels `"b"`,
the tick reaches the snapshot name `"b"`, finds no instance, and fails
(the source calls `anim.update()` on `undefined`). -/
theorem C6_snapshot_reentrancy_cex : tick c6s 500 = .error "b" := by
  norm_num [c6s, tick, tickAux, lookupA, Animation.update, Animation.step,
    runOps, runOp, cancel, eraseA, cbCancelB, lerpQ, aA, aB,
    show ("a" : String) ≠ "b" from by decide,
    show ("b" : String) ≠ "a" from by decide]

/-- C6 amended: the tick does iterate a snapshot of the key list taken at the
start of the tick, so an entry added re-entrantly during the tick is not
advanced before the next tick (no value is delivered under a name that was
unregistered when the tick began); but an entry removed by a callback before
its turn is *not* skipped — when the tick reaches that name the missing
instance makes the frame handler fail. -/
theorem C6_snapshot_reentrancy_amended :
    (∀ (s : SchedState) (now : ℚ) (n : String), Keyed s.anims →
      n ∉ namesOf s.anims →
      ∀ s', tick s now = .ok s' →
        ∀ v : ℚ, s'.log.count (n, v) = s.log.count (n, v)) ∧
    tick c6s 500 = .error "b" := by
  constructor
  · intro s now n hk hn s' hok v
    simp only [tick] at hok
    exact ((tickAux_count now (namesOf s.anims) s hk) s' hok).2 n hn v
  · norm_num [c6s, tick, tickAux, lookupA, Animation.update, Animation.step,
      runOps, runOp, cancel, eraseA, cbCancelB, lerpQ, aA, aB,
      show ("a" : String) ≠ "b" from by decide,
      show ("b" : String) ≠ "a" from by decide]

/-- C6 witness: the deferral clause instantiated on the fixture registry — a
tick at clock `70` delivers nothing under the unregistered name `"z"`. -/
theorem C6_snapshot_reentrancy_witness :
    List.count (("z", (5:ℚ))) (SchedState.log ⟨[("x", aW)], 1, [("x", 7)], []⟩) =
      List.count (("z", (5:ℚ))) sW.log :=
  C6_snapshot_reentrancy_amended.1 sW 70 "z"
    (by intro p hp
        simp only [sW, List.mem_singleton] at hp
        rw [hp]
        rfl)
    (by simp [sW, namesOf])
    ⟨[("x", aW)], 1, [("x", 7)], []⟩
    (by norm_num [sW, aW, tick, tickAux, lookupA, Animation.update,
      Animation.step, runOps, cbPure, lerpQ])
    5

/-- C9: after creation, advancing the scheduler never rewrites an instance's
`startValue`, `endValue`, `durationMs`, blend, callback, `onEnd`, repeat
mode, name, identity or `deltaValue`: a tick leaves any still-registered
instance `sameCore`-equal to its previous state (only `startMs` and
`reverse` may differ), and `cancel`/`animate` leave the registered instance
itself untouched. -/
theorem C9_immutable_fields (s : SchedState) (name : String) (a : Animation) (now : ℚ)
    (hl : lookupA s.anims name = some a)
    (hap : AllPure s.anims) (hk : Keyed s.anims) (hnd : (namesOf s.anims).Nodup) :
    (∃ s', tick s now = .ok s' ∧
      ∀ b, lookupA s'.anims name = some b → sameCore a b) ∧
    (∀ m, lookupA (cancel s m).anims name = some a ∨
      lookupA (cancel s m).anims name = none) ∧
    (∀ (nm : String) (sv ev dur : ℚ) (curve : ℚ → ℚ → ℚ → ℚ)
      (cb : ℚ → List RegOp) (mode : RepeatMode)
      (onEnd : Option (String → List RegOp)) (now2 : ℚ),
      lookupA (animate s nm sv ev dur curve cb mode onEnd now2).anims name = some a) := by
  refine ⟨?_, ?_, ?_⟩
  · obtain ⟨s', hok, _, _, _, _, _, g6⟩ :=
      tickAux_pure now (namesOf s.anims) s (fun n hn => hn) hnd hap hk hnd
    refine ⟨s', ?_, ?_⟩
    · simp only [tick]
      simp only [namesOf] at hok
      exact hok
    · intro b hb
      obtain ⟨c, hc, hcb⟩ := g6 name b hb
      rw [hl] at hc
      cases hc
      exact hcb
  · intro m
    simp only [cancel, lookupA_eraseA]
    by_cases hq : name = m
    · simp [hq]
    · simp [hq, hl]
  · intro nm sv ev dur curve cb mode onEnd now2
    simp only [animate]
    split
    · exact hl
    · exact lookupA_append_some hl

/-- C9 witness: on the fixture, a completed tick succeeds, and `cancel` of
another name and `animate` of a fresh name leave `"x"`'s instance intact. -/
theorem C9_immutable_fields_witness :
    (tick sW 1000).isOk = true ∧
    (lookupA (cancel sW "q").anims "x" = some aW ∨
      lookupA (cancel sW "q").anims "x" = none) ∧
    lookupA (animate sW "q" 1 2 3 lerpQ cbPure RepeatMode.None none 9).anims "x" = some aW :=
  have h := C9_immutable_fields sW "x" aW 1000 (by simp [sW, aW, lookupA])
    (by intro p hp
        simp only [sW, List.mem_singleton] at hp
        rw [hp]
        exact ⟨fun v => rfl, fun n => rfl⟩)
    (by intro p hp
        simp only [sW, List.mem_singleton] at hp
        rw [hp]
        rfl)
    (by simp [sW, namesOf])
  ⟨by obtain ⟨s', hok, _⟩ := h.1
      rw [hok]
      rfl,
   h.2.1 "q",
   h.2.2 "q" 1 2 3 lerpQ cbPure RepeatMode.None none 9⟩

/-- C10: an instance with `durationMs ≤ 0` satisfies the completion test on
every tick at or after its start time, so each tick delivers the blend at
clamped progress `1` (never an intermediate progress), and under
`RepeatMode.None` the instance is removed on that very tick. -/
theorem C10_nonpositive_duration (s : SchedState) (a : Animation) (now : ℚ)
    (hdur : a.durationMs ≤ 0) (hnow : a.startMs ≤ now) (hp : pureAnim a) :
    (a.update s now).log = s.log ++
      [(a.name, a.curve a.startValue a.endValue (if a.reverse then 1 - 1 else 1))] ∧
    (a.repeatMode = .None → animExists (a.update s now) a.name = false) := by
  have ht : a.durationMs ≤ now - a.startMs := le_trans hdur (by linarith)
  constructor
  · obtain ⟨v, hlog, hv⟩ := update_log_shape a s now
    rw [hlog, hv ht]
    rfl
  · intro hm
    rw [update_done_none hp hm ht]
    simp [animExists, lookupA_eraseA]

/-- Fixture for C10: a zero-duration `None` animation `"z"` from `2` to `9`
started at clock `5`. -/
def aZ : Animation := ⟨3, "z", 2, 9, 0, lerpQ, cbPure, .None, onEndPure, 5, 7, false⟩

/-- Fixture registry holding only `aZ`. -/
def sZ : SchedState := ⟨[("z", aZ)], 4, [], []⟩

/-- C10 witness: the very first tick of the zero-duration fixture delivers
the blend at progress `1` and removes the instance. -/
theorem C10_nonpositive_duration_witness :
    (aZ.update sZ 5).log = sZ.log ++
      [(aZ.name, aZ.curve aZ.startValue aZ.endValue (if aZ.reverse then 1 - 1 else 1))] ∧
    animExists (aZ.update sZ 5) aZ.name = false :=
  have h := C10_nonpositive_duration sZ aZ 5 (by norm_num [aZ]) (by norm_num [aZ])
    ⟨fun v => rfl, fun n => rfl⟩
  ⟨h.1, h.2 rfl⟩

end ease.animation
